import Mathlib

/-!
Shallow embedding of cluster.py, a command-line utility that clusters short
text strings by character n-gram similarity, and proofs about it.

Python strings are modelled as lists of characters; the pipeline is
tokenize (build_ngrams) → vectorize (the count matrix X of build_features) →
normalize/reduce (scikit-learn StandardScaler and PCA, external library code
taken as function parameters satisfying the contracts of the specification) →
cluster (scikit-learn DBSCAN, modelled from the specification, section 4.5) →
group (clusternames) → report (print_clusters).
-/

set_option autoImplicit false

namespace Cluster

/-- Size of NGRAMs (source line 33). -/
def N : Nat := 2

/-- PCA components (source line 34). -/
def N_COMPONENTS : Nat := 50

/-- DBSCAN epsilon (source line 35). The source stores the float 5.4; the
embedding uses the rational 27/5. -/
def EPSILON : ℚ := 27 / 5

/-- DBSCAN min samples (source line 36). -/
def MIN_SAMPLES : Nat := 3

/-- The n-grams of one name: the slices name[i:i+N] for 0 ≤ i ≤ len(name) - N
(source lines 55-56; the Python range xrange(len(name)-N+1) is empty when the
name is shorter than N, which Nat subtraction in len + 1 - N reproduces). -/
def ngramsOfName (s : List Char) : List (List Char) :=
  (List.range (s.length + 1 - N)).map (fun i => (s.drop i).take N)

/-- build_ngrams (source lines 39-57): the set of all n-grams occurring in any
of the names, materialized as a duplicate-free list. The Python set's
iteration order is unspecified; this embedding fixes one concrete order. -/
def build_ngrams (names : List (List Char)) : List (List Char) :=
  ((names.map ngramsOfName).flatten).dedup

/-- Fuel-indexed scan behind pyCount: look for sub at the head of the string;
on a match count it and resume after the matched block, otherwise advance one
character. The fuel (initially the string length) only guarantees
termination and is never exhausted before the string is. -/
def pyCountAux (sub : List Char) : Nat → List Char → Nat
  | 0, _ => 0
  | _ + 1, [] => 0
  | fuel + 1, c :: rest =>
    if sub.isPrefixOf (c :: rest) then
      1 + pyCountAux sub fuel (rest.drop (sub.length - 1))
    else
      pyCountAux sub fuel rest

/-- Python's name.count(ngram) (source line 83): the number of
non-overlapping occurrences of sub in s, scanning left to right; in Python,
"aaa".count("aa") evaluates to 1, and s.count("") to len(s) + 1. -/
def pyCount (s sub : List Char) : Nat :=
  if sub.isEmpty then s.length + 1 else pyCountAux sub s.length s

/-- The count feature matrix X (source lines 82-84): one row per name, one
column per vocabulary n-gram, entry = name.count(ngram). The source converts
each count to float; the conversion is exact, so the embedding keeps
naturals. -/
def buildX (names : List (List Char)) : List (List Nat) :=
  names.map (fun nm => (build_ngrams names).map (fun g => pyCount nm g))

/-- The count matrix cast to rationals, the form handed to the numeric
library steps. -/
def buildXQ (names : List (List Char)) : List (List ℚ) :=
  (buildX names).map (fun row => row.map (fun n => (n : ℚ)))

/-- The specification's counting notion (Data Model: "count of that n-gram's
occurrences in that string (including overlapping occurrences)"): the number
of start positions at which sub occurs in s. Stated from the spec's words, to
be compared with the source's pyCount. -/
def countOverlapping (s sub : List Char) : Nat :=
  ((List.range (s.length + 1 - sub.length)).filter
    (fun i => decide ((s.drop i).take sub.length = sub))).length

/-- One step of the defaultdict(list) loop (source line 113): append nm to the
group of label l, creating the group (at the end) when absent. -/
def insertName (l : Int) (nm : List Char) :
    List (Int × List (List Char)) → List (Int × List (List Char))
  | [] => [(l, [nm])]
  | (k, v) :: rest =>
    if k = l then (k, v ++ [nm]) :: rest else (k, v) :: insertName l nm rest

/-- The grouping loop of clusternames (source lines 111-113): izip pairs
every label with its name (truncating to the shorter list) and each name is
appended to its label's group. -/
def groupByLabels (labels : List Int) (names : List (List Char)) :
    List (Int × List (List Char)) :=
  (labels.zip names).foldl (fun acc p => insertName p.1 p.2 acc) []

/-- The labels keying the grouping. -/
def keysOf (acc : List (Int × List (List Char))) : List Int :=
  acc.map (fun p => p.1)

/-- The group of label l, if present. -/
def lookupGroup (l : Int) : List (Int × List (List Char)) → Option (List (List Char))
  | [] => none
  | (k, v) :: rest => if k = l then some v else lookupGroup l rest

/-- All group members, concatenated across groups. -/
def joinGroups (acc : List (Int × List (List Char))) : List (List Char) :=
  (acc.map (fun p => p.2)).flatten

/-- The names among the label-name pairs that carry label l, in order. -/
def labelFilter (l : Int) (pairs : List (Int × List Char)) : List (List Char) :=
  (pairs.filter (fun p => decide (p.1 = l))).map (fun p => p.2)

/-- Squared Euclidean distance between two reduced rows. -/
def sqdist (p q : List ℚ) : ℚ :=
  ((p.zip q).map (fun pr => (pr.1 - pr.2) * (pr.1 - pr.2))).sum

/-- The squared threshold radius: EPSILON * EPSILON, spelled as an explicit
normalized rational (proved equal to the product in EPSILON2_eq). -/
def EPSILON2 : ℚ := mkRat 729 25

/-- The squared-distance sum of two rows as one raw fraction
(numerator, denominator), accumulated with integer arithmetic only. -/
def sqdistFold (p q : List ℚ) : Int × Int :=
  (p.zip q).foldl
    (fun acc pr =>
      (acc.1 * ((pr.1.den : Int) * (pr.2.den : Int) * ((pr.1.den : Int) * (pr.2.den : Int)))
         + (pr.1.num * (pr.2.den : Int) - pr.2.num * (pr.1.den : Int))
           * (pr.1.num * (pr.2.den : Int) - pr.2.num * (pr.1.den : Int)) * acc.2,
       acc.2 * ((pr.1.den : Int) * (pr.2.den : Int) * ((pr.1.den : Int) * (pr.2.den : Int)))))
    ((0 : Int), (1 : Int))

/-- Whether the squared Euclidean distance between rows p and q is at most c:
the comparison the DBSCAN neighborhood test needs, computed exactly on
numerators and denominators (proved equivalent to the field-level inequality
in sqdistLE_iff). -/
def sqdistLE (p q : List ℚ) (c : ℚ) : Bool :=
  decide ((sqdistFold p q).1 * (c.den : Int) ≤ c.num * (sqdistFold p q).2)

/-- Modelled from the spec: DBSCAN is scikit-learn code, not part of this
repository; sections 4.5 and the glossary define it. The epsilon-neighborhood
of point i: all indices whose Euclidean distance from point i is at most
EPSILON (stated on squared distances to stay in the rationals). -/
def neighbors (pts : List (List ℚ)) (i : Nat) : List Nat :=
  (List.range pts.length).filter
    (fun j => sqdistLE (pts.getD i []) (pts.getD j []) EPSILON2)

/-- Modelled from the spec (section 4.5): a core point has at least
MIN_SAMPLES neighbors, itself included. -/
def isCore (pts : List (List ℚ)) (i : Nat) : Bool :=
  decide (MIN_SAMPLES ≤ (neighbors pts i).length)

/-- One expansion step of a cluster: adjoin every point lying in the
epsilon-neighborhood of some core point already in the set. -/
def expandStep (pts : List (List ℚ)) (s : List Nat) : List Nat :=
  s ++ (List.range pts.length).filter
    (fun j => !s.contains j &&
      s.any (fun c => isCore pts c && (neighbors pts c).contains j))

/-- Modelled from the spec (section 4.5): the points connected to point i
through a chain of core points; iterating the expansion step as many times as
there are points reaches its fixpoint. -/
def reachFrom (pts : List (List ℚ)) (i : Nat) : List Nat :=
  (expandStep pts)^[pts.length] [i]

/-- Overwrite with cid the label of every still-unlabeled point in the set s. -/
def assignCluster (cur : List Int) (s : List Nat) (cid : Int) : List Int :=
  ((List.range cur.length).zip cur).map
    (fun p => if p.2 = -1 ∧ p.1 ∈ s then cid else p.2)

/-- One step of the DBSCAN labeling walk: a still-unlabeled core point founds
the next cluster, labeling everything reachable from it that is still
unlabeled. -/
def dbscanStep (pts : List (List ℚ)) (st : List Int × Int) (i : Nat) :
    List Int × Int :=
  if isCore pts i && (st.1.getD i (-1) == (-1 : Int)) then
    (assignCluster st.1 (reachFrom pts i) st.2, st.2 + 1)
  else st

/-- Modelled from the spec (section 4.5): DBSCAN labeling. Every point starts
at the noise label -1; the points are walked in index order and clusters are
numbered from 0 in the order founded; points never reached from any core stay
at -1. -/
def dbscanLabels (pts : List (List ℚ)) : List Int :=
  ((List.range pts.length).foldl (dbscanStep pts)
    (List.replicate pts.length (-1), 0)).1

/-- build_features (source lines 60-88): the count matrix followed by the two
library calls. StandardScaler and PCA are scikit-learn code, not part of this
repository; they enter as function parameters, which already grants them the
determinism the specification demands of them (sections 4.3 and 4.4). -/
def build_features (scaler pca : List (List ℚ) → List (List ℚ))
    (names : List (List Char)) : List (List ℚ) :=
  pca (scaler (buildXQ names))

/-- clusternames (source lines 91-114): build the reduced features, label the
rows with DBSCAN, and group the original names by label. -/
def clusternames (scaler pca : List (List ℚ) → List (List ℚ))
    (names : List (List Char)) : List (Int × List (List Char)) :=
  groupByLabels (dbscanLabels (build_features scaler pca names)) names

/-- The header line printed for one group (source lines 125-129); the
non-noise header names the cluster by its first member. -/
def clusterHeader (cluster : Int) (contents : List (List Char)) : String :=
  if cluster = -1 then "[*] --- Outside any cluster ---"
  else "[*] --- Cluster: " ++ String.mk (contents.headD []) ++ " ---"

/-- The cluster count print_clusters reports (source line 133): the number of
groups, minus one when the noise group is present. -/
def n_clusters (clustered : List (Int × List (List Char))) : Nat :=
  clustered.length - (if -1 ∈ keysOf clustered then 1 else 0)

/-- print_clusters (source lines 117-134) as a pure function from the
grouping to the sequence of printed lines. -/
def print_clusters_lines (clustered : List (Int × List (List Char))) :
    List String :=
  (clustered.map (fun p =>
    clusterHeader p.1 p.2 :: p.2.map (fun nm => "[+] " ++ String.mk nm))).flatten
    ++ ["[*] Estimated number of clusters: " ++ toString (n_clusters clustered)]

/-- Failure taxonomy of the specification (section 7). -/
inductive PipelineError where
  | emptyInput
  | libraryInternal
  deriving DecidableEq

/-- Modelled from the spec: the StandardScaler and PCA calls (source lines
86-87) are scikit-learn code, not part of this repository; per section 7, on
a feature matrix carrying no data (zero rows, or zero columns in every row)
they fail with a library-internal numeric error. The source wraps the calls
in no guard or handler, so that error propagates as-is; on well-formed data
the reduction (a parameter here) is applied. -/
def build_features_run (reduce : List (List ℚ) → List (List ℚ))
    (names : List (List Char)) : Except PipelineError (List (List ℚ)) :=
  if (buildXQ names).all List.isEmpty then
    Except.error PipelineError.libraryInternal
  else
    Except.ok (reduce (buildXQ names))

/-- The sum of squared differences over a list of coordinate pairs. -/
def sumSq (L : List (ℚ × ℚ)) : ℚ :=
  (L.map (fun pr => (pr.1 - pr.2) * (pr.1 - pr.2))).sum

example : build_ngrams [['a','a','a'], ['a','a','b'], ['x','y','z']] =
    [['a','a'], ['a','b'], ['x','y'], ['y','z']] := by decide

example : pyCount ['a','a','a'] ['a','a'] = 1 := by decide

example : countOverlapping ['a','a','a'] ['a','a'] = 2 := by decide

example : buildX [['a','a','a'], ['a','a','b'], ['x','y','z']] =
    [[1,0,0,0],[1,1,0,0],[0,0,1,1]] := by decide

theorem lookupGroup_insertName (l l' : Int) (nm : List Char)
    (acc : List (Int × List (List Char))) :
    lookupGroup l (insertName l' nm acc) =
      if l = l' then some ((lookupGroup l acc).getD [] ++ [nm])
      else lookupGroup l acc := by
  induction acc with
  | nil =>
    by_cases h : l = l'
    · subst h
      simp [insertName, lookupGroup]
    · simp [insertName, lookupGroup, h, Ne.symm h]
  | cons q rest ih =>
    obtain ⟨k, v⟩ := q
    by_cases hk : k = l'
    · subst hk
      by_cases h : l = k
      · subst h
        simp [insertName, lookupGroup]
      · simp [insertName, lookupGroup, h, Ne.symm h]
    · by_cases h : k = l
      · subst h
        simp [insertName, lookupGroup, hk, Ne.symm hk]
      · simp [insertName, lookupGroup, hk, h, ih]

theorem keysOf_insertName (l : Int) (nm : List Char)
    (acc : List (Int × List (List Char))) :
    keysOf (insertName l nm acc) =
      if l ∈ keysOf acc then keysOf acc else keysOf acc ++ [l] := by
  induction acc with
  | nil => simp [insertName, keysOf]
  | cons q rest ih =>
    obtain ⟨k, v⟩ := q
    by_cases hk : k = l
    · subst hk
      simp [insertName, keysOf]
    · have hk' : ¬l = k := Ne.symm hk
      simp only [insertName, if_neg hk, keysOf, List.map_cons] at ih ⊢
      rw [ih]
      by_cases hm : l ∈ rest.map (fun p => p.1)
      · simp [hm, hk']
      · simp [hm, hk']

theorem nodup_keysOf_insertName (l : Int) (nm : List Char)
    (acc : List (Int × List (List Char))) (h : (keysOf acc).Nodup) :
    (keysOf (insertName l nm acc)).Nodup := by
  rw [keysOf_insertName]
  by_cases hm : l ∈ keysOf acc
  · simpa [hm]
  · rw [if_neg hm]
    refine List.Nodup.append h (List.nodup_singleton l) ?_
    intro a ha hb
    rw [List.mem_singleton] at hb
    subst hb
    exact hm ha

theorem joinGroups_insertName (l : Int) (nm : List Char)
    (acc : List (Int × List (List Char))) :
    (joinGroups (insertName l nm acc)).Perm (nm :: joinGroups acc) := by
  induction acc with
  | nil => simp [insertName, joinGroups]
  | cons q rest ih =>
    obtain ⟨k, v⟩ := q
    by_cases hk : k = l
    · subst hk
      simp only [insertName, if_true]
      simp only [joinGroups, List.map_cons, List.flatten_cons,
        List.append_assoc, List.singleton_append]
      exact List.perm_middle
    · simp only [insertName, if_neg hk, joinGroups, List.map_cons,
        List.flatten_cons]
      have ih' : (joinGroups (insertName l nm rest)).Perm
          (nm :: joinGroups rest) := ih
      simp only [joinGroups] at ih'
      exact (List.Perm.append_left v ih').trans List.perm_middle

theorem lookupGroup_foldl_some (pairs : List (Int × List Char)) :
    ∀ (acc : List (Int × List (List Char))) (l : Int) (v : List (List Char)),
      lookupGroup l acc = some v →
      lookupGroup l (pairs.foldl (fun a p => insertName p.1 p.2 a) acc) =
        some (v ++ labelFilter l pairs) := by
  induction pairs with
  | nil =>
    intro acc l v h
    simpa [labelFilter] using h
  | cons q rest ih =>
    intro acc l v h
    simp only [List.foldl_cons]
    by_cases hl : l = q.1
    · subst hl
      have h1 : lookupGroup q.1 (insertName q.1 q.2 acc) = some (v ++ [q.2]) := by
        rw [lookupGroup_insertName, if_pos rfl, h]
        rfl
      rw [ih _ _ _ h1]
      simp [labelFilter, List.append_assoc]
    · have h1 : lookupGroup l (insertName q.1 q.2 acc) = some v := by
        rw [lookupGroup_insertName, if_neg hl, h]
      rw [ih _ _ _ h1]
      simp [labelFilter, Ne.symm hl]

theorem lookupGroup_foldl_none (pairs : List (Int × List Char)) :
    ∀ (acc : List (Int × List (List Char))) (l : Int),
      lookupGroup l acc = none →
      lookupGroup l (pairs.foldl (fun a p => insertName p.1 p.2 a) acc) =
        if l ∈ pairs.map (fun p => p.1) then some (labelFilter l pairs)
        else none := by
  induction pairs with
  | nil =>
    intro acc l h
    simpa using h
  | cons q rest ih =>
    intro acc l h
    simp only [List.foldl_cons]
    by_cases hl : l = q.1
    · subst hl
      have h1 : lookupGroup q.1 (insertName q.1 q.2 acc) = some [q.2] := by
        rw [lookupGroup_insertName, if_pos rfl, h]
        rfl
      rw [lookupGroup_foldl_some rest _ _ _ h1]
      simp [labelFilter]
    · have h1 : lookupGroup l (insertName q.1 q.2 acc) = none := by
        rw [lookupGroup_insertName, if_neg hl, h]
      rw [ih _ _ h1]
      by_cases hm : l ∈ rest.map (fun p => p.1)
      · simp [labelFilter, hm, hl, Ne.symm hl, List.mem_cons]
      · simp [labelFilter, hm, hl, Ne.symm hl, List.mem_cons]

theorem nodup_keysOf_foldl (pairs : List (Int × List Char)) :
    ∀ (acc : List (Int × List (List Char))), (keysOf acc).Nodup →
      (keysOf (pairs.foldl (fun a p => insertName p.1 p.2 a) acc)).Nodup := by
  induction pairs with
  | nil => intro acc h; simpa using h
  | cons q rest ih =>
    intro acc h
    simp only [List.foldl_cons]
    exact ih _ (nodup_keysOf_insertName _ _ _ h)

theorem mem_keysOf_foldl (pairs : List (Int × List Char)) :
    ∀ (acc : List (Int × List (List Char))) (k : Int),
      k ∈ keysOf (pairs.foldl (fun a p => insertName p.1 p.2 a) acc) ↔
        k ∈ keysOf acc ∨ k ∈ pairs.map (fun p => p.1) := by
  induction pairs with
  | nil => simp
  | cons q rest ih =>
    intro acc k
    simp only [List.foldl_cons, List.map_cons, List.mem_cons]
    rw [ih, keysOf_insertName]
    by_cases hq : q.1 ∈ keysOf acc
    · rw [if_pos hq]
      constructor
      · intro hc
        rcases hc with hc | hc
        · exact Or.inl hc
        · exact Or.inr (Or.inr hc)
      · intro hc
        rcases hc with hc | hc | hc
        · exact Or.inl hc
        · exact Or.inl (hc ▸ hq)
        · exact Or.inr hc
    · rw [if_neg hq]
      simp only [List.mem_append, List.mem_singleton]
      constructor
      · intro hc
        rcases hc with (hc | hc) | hc
        · exact Or.inl hc
        · exact Or.inr (Or.inl hc)
        · exact Or.inr (Or.inr hc)
      · intro hc
        rcases hc with hc | hc | hc
        · exact Or.inl (Or.inl hc)
        · exact Or.inl (Or.inr hc)
        · exact Or.inr hc

theorem joinGroups_foldl (pairs : List (Int × List Char)) :
    ∀ (acc : List (Int × List (List Char))),
      (joinGroups (pairs.foldl (fun a p => insertName p.1 p.2 a) acc)).Perm
        (joinGroups acc ++ pairs.map (fun p => p.2)) := by
  induction pairs with
  | nil => simp
  | cons q rest ih =>
    intro acc
    simp only [List.foldl_cons, List.map_cons]
    refine (ih _).trans ?_
    refine (List.Perm.append_right _ (joinGroups_insertName q.1 q.2 acc)).trans ?_
    exact List.perm_middle.symm

theorem mem_insertName_ne_nil (l : Int) (nm : List Char)
    (acc : List (Int × List (List Char)))
    (h : ∀ p ∈ acc, p.2 ≠ [])
    (p : Int × List (List Char)) (hp : p ∈ insertName l nm acc) : p.2 ≠ [] := by
  induction acc with
  | nil =>
    simp only [insertName, List.mem_singleton] at hp
    subst hp; simp
  | cons q rest ih =>
    obtain ⟨k, v⟩ := q
    simp only [insertName] at hp
    by_cases hk : k = l
    · rw [if_pos hk] at hp
      rcases List.mem_cons.1 hp with h1 | h2
      · subst h1; simp
      · exact h _ (List.mem_cons_of_mem _ h2)
    · rw [if_neg hk] at hp
      rcases List.mem_cons.1 hp with h1 | h2
      · subst h1
        exact h _ (List.mem_cons_self _ _)
      · exact ih (fun r hr => h r (List.mem_cons_of_mem _ hr)) h2

theorem EPSILON2_eq : EPSILON2 = EPSILON * EPSILON := by
  rw [EPSILON2, EPSILON, Rat.mkRat_eq_div]
  norm_num

theorem sqdist_eq_sumSq (p q : List ℚ) : sqdist p q = sumSq (p.zip q) := rfl

theorem num_eq_mul_den (r : ℚ) : (r.num : ℚ) = r * (r.den : ℚ) := by
  have hden : ((r.den : ℚ)) ≠ 0 := by
    exact_mod_cast r.den_nz
  exact (div_eq_iff hden).mp (Rat.num_div_den r)

theorem diff_num_eq (a b : ℚ) :
    ((a.num * (b.den : Int) - b.num * (a.den : Int) : Int) : ℚ) =
      (a - b) * ((a.den : ℚ) * (b.den : ℚ)) := by
  push_cast
  rw [num_eq_mul_den a, num_eq_mul_den b]
  ring

theorem sqdistFold_spec (L : List (ℚ × ℚ)) :
    ∀ acc : Int × Int, ∃ M : ℚ, 0 < M ∧
      ((L.foldl
        (fun acc pr =>
          (acc.1 * ((pr.1.den : Int) * (pr.2.den : Int) * ((pr.1.den : Int) * (pr.2.den : Int)))
             + (pr.1.num * (pr.2.den : Int) - pr.2.num * (pr.1.den : Int))
               * (pr.1.num * (pr.2.den : Int) - pr.2.num * (pr.1.den : Int)) * acc.2,
           acc.2 * ((pr.1.den : Int) * (pr.2.den : Int) * ((pr.1.den : Int) * (pr.2.den : Int)))))
        acc).1 : ℚ) = (acc.1 : ℚ) * M + sumSq L * (acc.2 : ℚ) * M ∧
      ((L.foldl
        (fun acc pr =>
          (acc.1 * ((pr.1.den : Int) * (pr.2.den : Int) * ((pr.1.den : Int) * (pr.2.den : Int)))
             + (pr.1.num * (pr.2.den : Int) - pr.2.num * (pr.1.den : Int))
               * (pr.1.num * (pr.2.den : Int) - pr.2.num * (pr.1.den : Int)) * acc.2,
           acc.2 * ((pr.1.den : Int) * (pr.2.den : Int) * ((pr.1.den : Int) * (pr.2.den : Int)))))
        acc).2 : ℚ) = (acc.2 : ℚ) * M := by
  induction L with
  | nil =>
    intro acc
    exact ⟨1, one_pos, by simp [sumSq], by simp⟩
  | cons pr rest ih =>
    intro acc
    obtain ⟨M', hM', h1, h2⟩ := ih
      (acc.1 * ((pr.1.den : Int) * (pr.2.den : Int) * ((pr.1.den : Int) * (pr.2.den : Int)))
         + (pr.1.num * (pr.2.den : Int) - pr.2.num * (pr.1.den : Int))
           * (pr.1.num * (pr.2.den : Int) - pr.2.num * (pr.1.den : Int)) * acc.2,
       acc.2 * ((pr.1.den : Int) * (pr.2.den : Int) * ((pr.1.den : Int) * (pr.2.den : Int))))
    have hd1 : (0 : ℚ) < ((pr.1.den : ℚ) * (pr.2.den : ℚ)) := by
      have u1 : (0 : ℚ) < (pr.1.den : ℚ) := by exact_mod_cast pr.1.pos
      have u2 : (0 : ℚ) < (pr.2.den : ℚ) := by exact_mod_cast pr.2.pos
      positivity
    refine ⟨((pr.1.den : ℚ) * (pr.2.den : ℚ)) * ((pr.1.den : ℚ) * (pr.2.den : ℚ)) * M',
      by positivity, ?_, ?_⟩
    · rw [List.foldl_cons] at *
      rw [h1]
      have hkey := diff_num_eq pr.1 pr.2
      push_cast
      push_cast at hkey
      rw [hkey]
      simp only [sumSq, List.map_cons, List.sum_cons]
      ring
    · rw [List.foldl_cons] at *
      rw [h2]
      push_cast
      ring

theorem sqdistLE_iff (p q : List ℚ) (c : ℚ) :
    sqdistLE p q c = true ↔ sqdist p q ≤ c := by
  obtain ⟨M, hM, h1, h2⟩ := sqdistFold_spec (p.zip q) ((0 : Int), (1 : Int))
  rw [sqdistLE, decide_eq_true_eq]
  have hfold1 : ((sqdistFold p q).1 : ℚ) = sumSq (p.zip q) * M := by
    simpa using h1
  have hfold2 : ((sqdistFold p q).2 : ℚ) = M := by
    simpa using h2
  have hcden : (0 : ℚ) < (c.den : ℚ) := by exact_mod_cast c.pos
  constructor
  · intro h
    have h' : (((sqdistFold p q).1 * (c.den : Int) : Int) : ℚ) ≤
        ((c.num * (sqdistFold p q).2 : Int) : ℚ) := by exact_mod_cast h
    push_cast at h'
    rw [hfold1, hfold2] at h'
    have h'' : sumSq (p.zip q) * (c.den : ℚ) ≤ (c.num : ℚ) := by
      have := (mul_le_mul_right hM).mp (by linarith [h'] : sumSq (p.zip q) * (c.den : ℚ) * M ≤ (c.num : ℚ) * M)
      exact this
    rw [sqdist_eq_sumSq]
    have := (le_div_iff₀ hcden).mpr h''
    rwa [Rat.num_div_den] at this
  · intro h
    rw [sqdist_eq_sumSq] at h
    have h'' : sumSq (p.zip q) * (c.den : ℚ) ≤ (c.num : ℚ) := by
      have := (le_div_iff₀ hcden).mp (by rwa [Rat.num_div_den] : sumSq (p.zip q) ≤ (c.num : ℚ) / (c.den : ℚ))
      exact this
    have h' : sumSq (p.zip q) * (c.den : ℚ) * M ≤ (c.num : ℚ) * M :=
      (mul_le_mul_right hM).mpr h''
    have : (((sqdistFold p q).1 * (c.den : Int) : Int) : ℚ) ≤
        ((c.num * (sqdistFold p q).2 : Int) : ℚ) := by
      push_cast
      rw [hfold1, hfold2]
      linarith
    exact_mod_cast this

example : dbscanLabels [[0], [0], [0]] = [0, 0, 0] := by decide

example : dbscanLabels [[0]] = [-1] := by decide

example : dbscanLabels [[0], [0], [0], [100], [100], [100]] =
    [0, 0, 0, 1, 1, 1] := by decide

example : clusternames id id [['a']] = [(-1, [['a']])] := by decide

theorem mem_neighbors_iff (pts : List (List ℚ)) (i j : Nat) :
    j ∈ neighbors pts i ↔ j < pts.length ∧
      sqdist (pts.getD i []) (pts.getD j []) ≤ EPSILON * EPSILON := by
  rw [neighbors, List.mem_filter, List.mem_range]
  refine and_congr_right fun _ => ?_
  rw [← EPSILON2_eq]
  exact sqdistLE_iff _ _ _

theorem length_assignCluster (cur : List Int) (s : List Nat) (cid : Int) :
    (assignCluster cur s cid).length = cur.length := by
  simp [assignCluster]

theorem mem_assignCluster (cur : List Int) (s : List Nat) (cid : Int)
    (x : Int) (hx : x ∈ assignCluster cur s cid) : x = cid ∨ x ∈ cur := by
  simp only [assignCluster, List.mem_map] at hx
  obtain ⟨p, hp, hval⟩ := hx
  by_cases hc : p.2 = -1 ∧ p.1 ∈ s
  · rw [if_pos hc] at hval
    exact Or.inl hval.symm
  · rw [if_neg hc] at hval
    exact Or.inr (hval ▸ (List.of_mem_zip hp).2)

theorem dbscanStep_length (pts : List (List ℚ)) (st : List Int × Int) (i : Nat) :
    ((dbscanStep pts st i).1).length = st.1.length := by
  rw [dbscanStep]
  split
  · exact length_assignCluster _ _ _
  · rfl

theorem length_foldl_dbscanStep (pts : List (List ℚ)) (L : List Nat) :
    ∀ st : List Int × Int,
      ((L.foldl (dbscanStep pts) st).1).length = st.1.length := by
  induction L with
  | nil => intro st; rfl
  | cons i rest ih =>
    intro st
    rw [List.foldl_cons, ih, dbscanStep_length]

theorem length_dbscanLabels (pts : List (List ℚ)) :
    (dbscanLabels pts).length = pts.length := by
  rw [dbscanLabels, length_foldl_dbscanStep]
  exact List.length_replicate _ _

theorem mem_dbscanStep (pts : List (List ℚ)) (st : List Int × Int) (i : Nat)
    (h1 : ∀ x ∈ st.1, x = -1 ∨ 0 ≤ x) (h2 : 0 ≤ st.2) :
    (∀ x ∈ (dbscanStep pts st i).1, x = -1 ∨ 0 ≤ x) ∧
      0 ≤ (dbscanStep pts st i).2 := by
  rw [dbscanStep]
  split
  · refine ⟨?_, by omega⟩
    intro x hx
    rcases mem_assignCluster _ _ _ _ hx with h | h
    · exact Or.inr (h ▸ h2)
    · exact h1 x h
  · exact ⟨h1, h2⟩

theorem mem_foldl_dbscanStep (pts : List (List ℚ)) (L : List Nat) :
    ∀ st : List Int × Int, (∀ x ∈ st.1, x = -1 ∨ 0 ≤ x) → 0 ≤ st.2 →
      ∀ x ∈ (L.foldl (dbscanStep pts) st).1, x = -1 ∨ 0 ≤ x := by
  induction L with
  | nil => intro st h1 _; exact h1
  | cons i rest ih =>
    intro st h1 h2
    rw [List.foldl_cons]
    obtain ⟨g1, g2⟩ := mem_dbscanStep pts st i h1 h2
    exact ih _ g1 g2

theorem mem_dbscanLabels (pts : List (List ℚ)) (x : Int)
    (hx : x ∈ dbscanLabels pts) : x = -1 ∨ 0 ≤ x := by
  rw [dbscanLabels] at hx
  refine mem_foldl_dbscanStep pts _ _ ?_ ?_ x hx
  · intro y hy
    exact Or.inl (List.eq_of_mem_replicate hy)
  · exact le_refl 0

theorem isCore_eq_false_of_few (pts : List (List ℚ)) (i : Nat)
    (h : pts.length < MIN_SAMPLES) : isCore pts i = false := by
  rw [isCore, decide_eq_false_iff_not]
  intro hle
  have hb : (neighbors pts i).length ≤ pts.length := by
    have := List.length_filter_le
      (fun j => sqdistLE (pts.getD i []) (pts.getD j []) EPSILON2)
      (List.range pts.length)
    simpa [neighbors] using this
  omega

theorem dbscanLabels_of_length_one (pts : List (List ℚ))
    (h : pts.length = 1) : dbscanLabels pts = [-1] := by
  have hc : isCore pts 0 = false :=
    isCore_eq_false_of_few pts 0 (by rw [h]; decide)
  rw [dbscanLabels, h]
  show (List.foldl (dbscanStep pts) (List.replicate 1 (-1), 0) [0]).1 = [-1]
  rw [List.foldl_cons, List.foldl_nil, dbscanStep, hc]
  rfl

theorem ngramsOfName_eq_nil (s : List Char) (h : s.length < N) :
    ngramsOfName s = [] := by
  rw [ngramsOfName]
  have h0 : s.length + 1 - N = 0 := by omega
  rw [h0]
  rfl

/-- C1 (counterexample): on the specification's own Scenario 1 corpus the
"aaa" row carries 1 in the "aa" column, because Python's str.count counts
non-overlapping occurrences, while the overlapping count the claim
prescribes there is 2. -/
theorem C1_overlap_counterexample :
    build_ngrams [['a','a','a'], ['a','a','b'], ['x','y','z']] =
      [['a','a'], ['a','b'], ['x','y'], ['y','z']] ∧
    ((buildX [['a','a','a'], ['a','a','b'], ['x','y','z']])[0]?.bind
      (fun row => row[0]?)) = some 1 ∧
    countOverlapping ['a','a','a'] ['a','a'] = 2 ∧
    ((buildX [['a','a','a'], ['a','a','b'], ['x','y','z']])[0]?.bind
      (fun row => row[0]?)) ≠
      some (countOverlapping ['a','a','a'] ['a','a']) := by
  exact ⟨by decide, by decide, by decide, by decide⟩

/-- C1 (amended): cell (i, j) of the count feature matrix equals the number
of NON-overlapping occurrences (Python's str.count) of vocabulary n-gram j
in corpus string i; out-of-range indices yield none on both sides. -/
theorem C1_cell_eq_pyCount (names : List (List Char)) (i j : Nat) :
    ((buildX names)[i]?.bind (fun row => row[j]?)) =
      names[i]?.bind (fun nm =>
        ((build_ngrams names)[j]?).map (fun g => pyCount nm g)) := by
  rw [buildX, List.getElem?_map]
  cases hnm : names[i]? with
  | none => rfl
  | some nm => simp [List.getElem?_map]

/-- C6: build_ngrams is exactly the duplicate-free set of contiguous
length-N substrings occurring at any position of any corpus string; a string
shorter than N contributes none; on the Scenario 1 corpus the vocabulary is
the set {aa, ab, xy, yz}. -/
theorem C6_vocabulary (names : List (List Char)) :
    (build_ngrams names).Nodup ∧
    (∀ g, g ∈ build_ngrams names ↔
      ∃ s, s ∈ names ∧ ∃ i, i + N ≤ s.length ∧ (s.drop i).take N = g) ∧
    (∀ s, s.length < N → ngramsOfName s = []) ∧
    (build_ngrams [['a','a','a'], ['a','a','b'], ['x','y','z']]).Perm
      [['a','a'], ['a','b'], ['x','y'], ['y','z']] := by
  refine ⟨List.nodup_dedup _, ?_, fun s hs => ngramsOfName_eq_nil s hs, by decide⟩
  intro g
  rw [build_ngrams, List.mem_dedup, List.mem_flatten]
  constructor
  · rintro ⟨l, hl, hg⟩
    rw [List.mem_map] at hl
    obtain ⟨s, hs, rfl⟩ := hl
    rw [ngramsOfName, List.mem_map] at hg
    obtain ⟨i, hi, hslice⟩ := hg
    rw [List.mem_range] at hi
    exact ⟨s, hs, i, by omega, hslice⟩
  · rintro ⟨s, hs, i, hi, hslice⟩
    refine ⟨ngramsOfName s, List.mem_map_of_mem _ hs, ?_⟩
    rw [ngramsOfName, List.mem_map]
    exact ⟨i, List.mem_range.mpr (by omega), hslice⟩

theorem C6_vocabulary_witness :
    ngramsOfName ['a'] = [] ∧
    (['a','b'] ∈ build_ngrams [['a','b']] ↔
      ∃ s, s ∈ [['a','b']] ∧ ∃ i, i + N ≤ s.length ∧
        (s.drop i).take N = ['a','b']) :=
  ⟨(C6_vocabulary []).2.2.1 ['a'] (by decide),
   (C6_vocabulary [['a','b']]).2.1 ['a','b']⟩

/-- C7: the feature matrix built before normalization has exactly one row
per corpus string and exactly one column per entry of the n-gram vocabulary
derived from that same corpus. -/
theorem C7_feature_matrix_shape (names : List (List Char)) :
    (buildX names).length = names.length ∧
    ∀ row ∈ buildX names, row.length = (build_ngrams names).length := by
  constructor
  · simp [buildX]
  · intro row hrow
    simp only [buildX, List.mem_map] at hrow
    obtain ⟨nm, _, hrow⟩ := hrow
    rw [← hrow]
    simp

theorem C7_feature_matrix_shape_witness :
    (buildX [['a','a','a']]).length = 1 ∧
    ([1] : List Nat).length = (build_ngrams [['a','a','a']]).length :=
  ⟨(C7_feature_matrix_shape [['a','a','a']]).1,
   (C7_feature_matrix_shape [['a','a','a']]).2 [1] (by decide)⟩

theorem mem_foldl_insertName_ne_nil (pairs : List (Int × List Char)) :
    ∀ (acc : List (Int × List (List Char))), (∀ p ∈ acc, p.2 ≠ []) →
      ∀ p ∈ pairs.foldl (fun a p => insertName p.1 p.2 a) acc, p.2 ≠ [] := by
  induction pairs with
  | nil => intro acc h; exact h
  | cons q rest ih =>
    intro acc h
    rw [List.foldl_cons]
    exact ih _ (mem_insertName_ne_nil q.1 q.2 acc h)

/-- C4: for a non-empty corpus, the grouping returned by clusternames is a
partition of the input: the concatenation of all groups is a permutation of
the corpus (multiset equality), the group labels are pairwise distinct, and
the group of each present label is exactly the subsequence of names carrying
that label, in input order (so every occurrence lands in exactly one group).
The hypothesis on the rows is the library contract that normalization and
reduction preserve the row count (specification sections 4.3 and 4.4). -/
theorem C4_partition (scaler pca : List (List ℚ) → List (List ℚ))
    (names : List (List Char)) (_hne : names ≠ [])
    (hrows : (build_features scaler pca names).length = names.length) :
    (joinGroups (clusternames scaler pca names)).Perm names ∧
    (keysOf (clusternames scaler pca names)).Nodup ∧
    (∀ l g, lookupGroup l (clusternames scaler pca names) = some g →
      g = labelFilter l
        ((dbscanLabels (build_features scaler pca names)).zip names)) := by
  have hlen : (dbscanLabels (build_features scaler pca names)).length =
      names.length := by
    rw [length_dbscanLabels, hrows]
  refine ⟨?_, ?_, ?_⟩
  · have h := joinGroups_foldl
      ((dbscanLabels (build_features scaler pca names)).zip names) []
    rw [clusternames, groupByLabels]
    refine h.trans ?_
    have hsnd : ((dbscanLabels (build_features scaler pca names)).zip
        names).map (fun p => p.2) = names := by
      have := List.map_snd_zip (dbscanLabels (build_features scaler pca names))
        names (le_of_eq hlen.symm)
      simpa using this
    simp [joinGroups, hsnd]
  · rw [clusternames, groupByLabels]
    exact nodup_keysOf_foldl _ [] (by simp [keysOf])
  · intro l g hg
    rw [clusternames, groupByLabels] at hg
    rw [lookupGroup_foldl_none _ [] l rfl] at hg
    by_cases hm : l ∈ ((dbscanLabels (build_features scaler pca names)).zip
        names).map (fun p => p.1)
    · rw [if_pos hm] at hg
      exact (Option.some.inj hg).symm
    · rw [if_neg hm] at hg
      exact absurd hg (by simp)

theorem C4_partition_witness :
    (joinGroups (clusternames id id [['a']])).Perm [['a']] ∧
    (keysOf (clusternames id id [['a']])).Nodup ∧
    (∀ l g, lookupGroup l (clusternames id id [['a']]) = some g →
      g = labelFilter l
        ((dbscanLabels (build_features id id [['a']])).zip [['a']])) :=
  C4_partition id id [['a']] (by decide) (by decide)

/-- C10: every group in the mapping returned by clusternames is non-empty:
groups are only ever created around a first member and only grow by
appending, so the reporter's access to the first member of a group
(contents[0], modelled by headD) is always safe. -/
theorem C10_groups_nonempty (scaler pca : List (List ℚ) → List (List ℚ))
    (names : List (List Char)) :
    ∀ p ∈ clusternames scaler pca names, p.2 ≠ [] := by
  rw [clusternames, groupByLabels]
  exact mem_foldl_insertName_ne_nil _ [] (by simp)

theorem C10_groups_nonempty_witness :
    (((-1 : Int), [['a']]) : Int × List (List Char)).2 ≠ [] :=
  C10_groups_nonempty id id [['a']] ((-1 : Int), [['a']]) (by decide)

/-- C9: a corpus of a single string is placed in the noise group: with one
point no neighborhood of size MIN_SAMPLES = 3 exists, so the point is not a
core, DBSCAN labels it -1, and clusternames returns the noise group holding
exactly that string. The hypothesis is the library contract that the
reduction step preserves the row count (sections 4.3 and 4.4). -/
theorem C9_single_string_noise (scaler pca : List (List ℚ) → List (List ℚ))
    (name : List Char)
    (hrow : (build_features scaler pca [name]).length = 1) :
    clusternames scaler pca [name] = [((-1 : Int), [name])] := by
  rw [clusternames, dbscanLabels_of_length_one _ hrow]
  rfl

theorem C9_single_string_noise_witness :
    clusternames id id [['a']] = [((-1 : Int), [['a']])] :=
  C9_single_string_noise id id ['a'] (by decide)

/-- C5: determinism: the pipeline is a pure function of the corpus, so two
runs on the same input under the same configuration return the same
grouping, in particular the same partition into groups and the same noise
membership. The library stages enter as fixed functions, which is exactly
the reproducibility the specification demands of them (section 4.4). -/
theorem C5_deterministic (scaler pca : List (List ℚ) → List (List ℚ))
    (names1 names2 : List (List Char)) (h : names1 = names2) :
    clusternames scaler pca names1 = clusternames scaler pca names2 ∧
    (joinGroups (clusternames scaler pca names1)).Perm
      (joinGroups (clusternames scaler pca names2)) ∧
    lookupGroup (-1) (clusternames scaler pca names1) =
      lookupGroup (-1) (clusternames scaler pca names2) := by
  subst h
  exact ⟨rfl, List.Perm.refl _, rfl⟩

theorem C5_deterministic_witness :
    clusternames id id [['a']] = clusternames id id [['a']] ∧
    (joinGroups (clusternames id id [['a']])).Perm
      (joinGroups (clusternames id id [['a']])) ∧
    lookupGroup (-1) (clusternames id id [['a']]) =
      lookupGroup (-1) (clusternames id id [['a']]) :=
  C5_deterministic id id [['a']] [['a']] rfl

theorem flatten_map_nil {α β : Type} (l : List α) :
    (l.map (fun _ => ([] : List β))).flatten = [] := by
  induction l with
  | nil => rfl
  | cons x xs ih => simp [ih]

theorem build_ngrams_eq_nil (names : List (List Char))
    (hshort : ∀ s ∈ names, s.length < N) : build_ngrams names = [] := by
  rw [build_ngrams]
  have hmap : names.map ngramsOfName = names.map (fun _ => []) :=
    List.map_congr_left (fun s hs => ngramsOfName_eq_nil s (hshort s hs))
  rw [hmap, flatten_map_nil]
  rfl

theorem buildXQ_all_nil (names : List (List Char))
    (hshort : ∀ s ∈ names, s.length < N) :
    buildXQ names = names.map (fun _ => []) := by
  rw [buildXQ, buildX, build_ngrams_eq_nil names hshort]
  simp [List.map_map]

/-- C3 (counterexample): on the corpus of two empty strings the vocabulary
is empty and the feature matrix has two rows of zero columns, and the
unguarded pipeline surfaces the library-internal failure, which is not an
EmptyInputError-style error. -/
theorem C3_no_emptyInputError_counterexample :
    build_ngrams [[], []] = [] ∧
    buildXQ [[], []] = [[], []] ∧
    build_features_run id [[], []] = Except.error PipelineError.libraryInternal ∧
    (Except.error PipelineError.libraryInternal :
        Except PipelineError (List (List ℚ))) ≠
      Except.error PipelineError.emptyInput := by
  refine ⟨rfl, rfl, rfl, ?_⟩
  intro h
  exact PipelineError.noConfusion (Except.error.inj h)

/-- C3 (amended): when every corpus line is shorter than N after stripping
(in particular for zero lines or for the two-empty-string corpus), the
vocabulary is empty and every feature row has zero columns, and the pipeline
propagates the library-internal numeric failure; the source raises no
EmptyInputError-style error of its own. -/
theorem C3_empty_vocab_library_failure
    (reduce : List (List ℚ) → List (List ℚ)) (names : List (List Char))
    (hshort : ∀ s ∈ names, s.length < N) :
    build_ngrams names = [] ∧
    buildXQ names = names.map (fun _ => []) ∧
    build_features_run reduce names =
      Except.error PipelineError.libraryInternal := by
  refine ⟨build_ngrams_eq_nil names hshort, buildXQ_all_nil names hshort, ?_⟩
  have hcond : (buildXQ names).all List.isEmpty = true := by
    rw [buildXQ_all_nil names hshort]
    simp [List.all_eq_true]
  rw [build_features_run, if_pos hcond]

theorem C3_empty_vocab_library_failure_witness :
    build_ngrams [[], []] = [] ∧
    buildXQ [[], []] =
      ([[], []] : List (List Char)).map (fun _ => ([] : List ℚ)) ∧
    build_features_run id [[], []] =
      Except.error PipelineError.libraryInternal :=
  C3_empty_vocab_library_failure id [[], []] (by decide)

theorem length_sub_ite_eq_filter (l : List Int) (hnd : l.Nodup)
    (hall : ∀ x ∈ l, x = -1 ∨ 0 ≤ x) :
    l.length - (if -1 ∈ l then 1 else 0) =
      (l.filter (fun x => decide (0 ≤ x))).length := by
  induction l with
  | nil => rfl
  | cons x rest ih =>
    rw [List.nodup_cons] at hnd
    obtain ⟨hx, hrest⟩ := hnd
    have hall' : ∀ y ∈ rest, y = -1 ∨ 0 ≤ y :=
      fun y hy => hall y (List.mem_cons_of_mem _ hy)
    have hih := ih hrest hall'
    have hfl : List.filter (fun y => decide (0 ≤ y)) (x :: rest) =
        if 0 ≤ x then x :: List.filter (fun y => decide (0 ≤ y)) rest
        else List.filter (fun y => decide (0 ≤ y)) rest := by
      rw [List.filter_cons]
      by_cases hp : (0 : Int) ≤ x
      · simp [hp]
      · simp [hp]
    rcases hall x (List.mem_cons_self _ _) with hneg | hpos
    · subst hneg
      rw [if_neg hx, Nat.sub_zero] at hih
      rw [hfl, if_neg (by decide : ¬ (0 : Int) ≤ -1),
        if_pos (List.mem_cons_self _ _)]
      simp only [List.length_cons]
      omega
    · have hxne : (-1 : Int) ≠ x := by omega
      rw [hfl, if_pos hpos]
      by_cases hm : (-1 : Int) ∈ rest
      · have hplen : 0 < rest.length :=
          List.length_pos.mpr (List.ne_nil_of_mem hm)
        rw [if_pos hm] at hih
        rw [if_pos (List.mem_cons_of_mem _ hm)]
        simp only [List.length_cons]
        omega
      · have hmm : (-1 : Int) ∉ x :: rest := by
          rw [List.mem_cons]
          rintro (hc | hc)
          · exact hxne hc
          · exact hm hc
        rw [if_neg hm, Nat.sub_zero] at hih
        rw [if_neg hmm]
        simp only [List.length_cons]
        omega

/-- C8: the cluster count reported by the final printed line equals the
number of distinct non-negative labels produced by the clusterer (the
number of groups excluding the noise group), and the final line carries it
in the format "[*] Estimated number of clusters: count". The hypothesis on
the rows is the library contract that normalization and reduction preserve
the row count (sections 4.3 and 4.4). -/
theorem C8_cluster_count (scaler pca : List (List ℚ) → List (List ℚ))
    (names : List (List Char))
    (hrows : (build_features scaler pca names).length = names.length) :
    n_clusters (clusternames scaler pca names) =
      ((dbscanLabels (build_features scaler pca names)).dedup.filter
        (fun l => decide (0 ≤ l))).length ∧
    (print_clusters_lines (clusternames scaler pca names)).getLast? =
      some ("[*] Estimated number of clusters: " ++
        toString (n_clusters (clusternames scaler pca names))) := by
  have hlen : (dbscanLabels (build_features scaler pca names)).length =
      names.length := by
    rw [length_dbscanLabels, hrows]
  have hnd : (keysOf (clusternames scaler pca names)).Nodup := by
    rw [clusternames, groupByLabels]
    exact nodup_keysOf_foldl _ [] (by simp [keysOf])
  have hmem : ∀ k, k ∈ keysOf (clusternames scaler pca names) ↔
      k ∈ dbscanLabels (build_features scaler pca names) := by
    intro k
    rw [clusternames, groupByLabels, mem_keysOf_foldl]
    have hfst : ((dbscanLabels (build_features scaler pca names)).zip
        names).map (fun p => p.1) =
        dbscanLabels (build_features scaler pca names) := by
      have := List.map_fst_zip (dbscanLabels (build_features scaler pca names))
        names (le_of_eq hlen)
      simpa using this
    rw [hfst]
    simp [keysOf]
  have hperm : (keysOf (clusternames scaler pca names)).Perm
      (dbscanLabels (build_features scaler pca names)).dedup := by
    refine (List.perm_ext_iff_of_nodup hnd (List.nodup_dedup _)).mpr ?_
    intro a
    rw [hmem, List.mem_dedup]
  have hall : ∀ x ∈ keysOf (clusternames scaler pca names),
      x = -1 ∨ 0 ≤ x := by
    intro x hxm
    exact mem_dbscanLabels _ x ((hmem x).mp hxm)
  constructor
  · rw [n_clusters]
    have hlenk : (clusternames scaler pca names).length =
        (keysOf (clusternames scaler pca names)).length := by
      simp [keysOf]
    rw [hlenk, length_sub_ite_eq_filter _ hnd hall]
    exact (hperm.filter _).length_eq
  · rw [print_clusters_lines]
    exact List.getLast?_concat _

theorem C8_cluster_count_witness :
    n_clusters (clusternames id id [['a']]) =
      ((dbscanLabels (build_features id id [['a']])).dedup.filter
        (fun l => decide (0 ≤ l))).length ∧
    (print_clusters_lines (clusternames id id [['a']])).getLast? =
      some ("[*] Estimated number of clusters: " ++
        toString (n_clusters (clusternames id id [['a']]))) :=
  C8_cluster_count id id [['a']] (by decide)

end Cluster
